import Mathlib

/-!
Shallow embedding of the virtual-file-tree / content-hashing core of the
appifi repository.

* The `Transfer` part embeds the chunked hashing of `src/box/rs-T-ws.js`
  (class `Transfer_1.storeFile`): the `data` handler, the `close` handler
  and the chained digest combination.
* The `File` part embeds the state machine of
  `src/fruitmix/forest/file.js`: constructor, attach/detach,
  index/unindex, startWorker/stopWorker, pause/resume, update, and the
  two worker callbacks registered by `startWorker`.

SHA-256 is modelled as a free constructor (`Dg.leaf` for a digest of raw
bytes, `Dg.comb` for a digest of the concatenation of two hex digests):
the development only depends on digests being determined by their input,
never on their numeric value.

The hash-worker module and the `Node`/root-index base class are not part
of the source tree (only `file.js` calls them); where needed they are
modelled from the spec, and each such definition says so in its doc
comment.
-/

namespace Appifi

/-- Segment size hard-coded by `rs-T-ws.js` (`SIZE_1G`). -/
def SIZE_1G : Nat := 1024 * 1024 * 1024

/-- A symbolic SHA-256 digest: `leaf bs` is the digest of the raw byte
sequence `bs`; `comb a b` is the digest of the concatenation of the two
hex digest strings `a` and `b` (as fed to the combine loop of the `close`
handler). `leaf []` plays the role of `EMPTY_SHA256_HEX`. -/
inductive Dg where
  | leaf : List Nat → Dg
  | comb : Dg → Dg → Dg
deriving DecidableEq, Repr

/-- State of `Transfer_1.storeFile` while the read stream delivers data:
`size` is the byte count credited to the current segment, `hashArr` the
leaf digests pushed so far, `acc` the bytes absorbed by the current
`hashMaker`. -/
structure TState where
  size : Nat
  hashArr : List Dg
  acc : List Nat
deriving DecidableEq, Repr

/-- The `data` handler of `Transfer_1.storeFile` (rs-T-ws.js lines
162-181), parametrized by the segment size `seg` (the code fixes
`seg = SIZE_1G`). On a boundary hit (`size + chunk.length >= SIZE_1G`)
the filled segment's digest is pushed and a fresh hash is started on the
remainder of the chunk. -/
def onData (seg : Nat) (st : TState) (chunk : List Nat) : TState :=
  if seg ≤ st.size + chunk.length then
    { size := (chunk.drop (seg - st.size)).length
      hashArr := st.hashArr ++ [Dg.leaf (st.acc ++ chunk.take (seg - st.size))]
      acc := chunk.drop (seg - st.size) }
  else
    { size := st.size + chunk.length
      hashArr := st.hashArr
      acc := st.acc ++ chunk }

/-- The `close` handler (rs-T-ws.js lines 183-202): pushes the digest of
the current `hashMaker` (even when it has absorbed no bytes), then either
returns the single leaf directly or combines the leaves left to right.
`List.foldl Dg.comb d rest` computes exactly what the loop computes, and
for `rest = []` it returns `d`, which is also the code's
`hashArr.length === 1` early exit. Returns the final digest together
with the pushed `hashArr`. -/
def onClose (st : TState) : Dg × List Dg :=
  match st.hashArr ++ [Dg.leaf st.acc] with
  | [] => (Dg.leaf [], [])
  | d :: rest => (rest.foldl Dg.comb d, st.hashArr ++ [Dg.leaf st.acc])

/-- Folding the `data` handler over the stream's chunks. -/
def runChunks (seg : Nat) (chunks : List (List Nat)) : TState :=
  chunks.foldl (onData seg) { size := 0, hashArr := [], acc := [] }

/-- `Transfer_1.storeFile` on a source whose read stream delivers
`chunks` in order: the data phase followed by the close handler. -/
def storeFile (seg : Nat) (chunks : List (List Nat)) : Dg × List Dg :=
  onClose (runChunks seg chunks)

/-- `storeFile` at the segment size hard-coded in the source. -/
def storeFile1G (chunks : List (List Nat)) : Dg × List Dg :=
  storeFile SIZE_1G chunks

/-- Loop invariant of the data phase: after absorbing content `p`, some
`k` full segments have been pushed as leaves in offset order, `acc`
holds the tail past the last boundary and `size` is its length. -/
def TInv (seg : Nat) (p : List Nat) (st : TState) : Prop :=
  ∃ k, p.length = seg * k + st.size ∧ st.size < seg ∧
    st.acc = p.drop (seg * k) ∧
    st.hashArr = (List.range k).map (fun i => Dg.leaf ((p.drop (seg * i)).take seg))

/-- A JavaScript value as it may appear in an xstat field: `undef` is
`undefined`; strings, numbers and booleans cover the `typeof` checks in
`file.js`. -/
inductive JVal where
  | undef : JVal
  | jstr : String → JVal
  | jnum : Int → JVal
  | jbool : Bool → JVal
deriving DecidableEq, Repr

/-- `typeof v === 'string'`. -/
def JVal.isStr : JVal → Bool
  | .jstr _ => true
  | _ => false

/-- JavaScript truthiness (`undefined`, the empty string, `0` and
`false` are falsy). -/
def JVal.truthy : JVal → Bool
  | .undef => false
  | .jstr s => decide (s ≠ "")
  | .jnum n => decide (n ≠ 0)
  | .jbool b => b

/-- xstat record as consumed by `File` (uuid, name, magic, hash). -/
structure Xstat where
  uuid : String
  name : String
  magic : JVal
  hash : JVal
deriving DecidableEq, Repr

/-- In-memory `File` node state: the fields assigned by the constructor
(file.js lines 32-80). `worker` holds the id of the job the handle
points to (`null` is `none`); `paused` starts falsy (the constructor
never assigns it). -/
structure FileSt where
  uuid : String
  name : String
  magic : String
  hash : JVal
  worker : Option Nat
  hashFail : Nat
  paused : Bool
deriving DecidableEq, Repr

/-- The `File` constructor (file.js lines 32-80): throws unless `magic`
is a string and `hash` is a string or `undefined`. -/
def mkFile (x : Xstat) : Except String FileSt :=
  if x.magic.isStr = false then .error "file must have magic string"
  else if x.hash ≠ .undef ∧ x.hash.isStr = false then
    .error "xstat hash must be either a string or undefined"
  else .ok { uuid := x.uuid, name := x.name,
             magic := match x.magic with | .jstr s => s | _ => "",
             hash := x.hash, worker := none, hashFail := 0, paused := false }

/-- A hashing job created by `startWorker`. Modelled from the spec: the
hash-worker module is not in the source tree. A job records the path it
was started against and whether `abort()` has been issued; per spec
section 5 a cancellation is acknowledged asynchronously (the job later
fires its `error` event with code `EABORT`), so `abort()` itself clears
neither the `File`'s handle nor the job. -/
structure Job where
  id : Nat
  path : String
  cancelled : Bool
deriving DecidableEq, Repr

/-- One `File` together with its outstanding jobs, the shared digest
index and the notifications sent to the owning directory. `jobs` holds
every job whose `error`/`finish` event has not yet fired; `nextId`
supplies fresh job ids; `attached` abstracts the parent back-reference
maintained by the `Node` base class. -/
structure Sys where
  file : FileSt
  jobs : List Job
  nextId : Nat
  idx : List (String × List String)
  attached : Bool
  missingNotes : List String
deriving DecidableEq, Repr

/-- Modelled from the spec (section 4.4; the `Node`/root code is not in
the source tree): the index is an association list from digest to the
set of file uuids sharing it. Lookup of a digest's set. -/
def idxLookup : List (String × List String) → String → List String
  | [], _ => []
  | e :: rest, k => if e.1 = k then e.2 else idxLookup rest k

/-- Modelled from the spec: `index(file)` insertion, idempotent-safe
(inserting a uuid already present leaves the set unchanged). -/
def idxInsert : List (String × List String) → String → String → List (String × List String)
  | [], d, u => [(d, [u])]
  | e :: rest, d, u =>
    if e.1 = d then (e.1, if u ∈ e.2 then e.2 else u :: e.2) :: rest
    else e :: idxInsert rest d u

/-- Modelled from the spec: `unindex(file)` removes the uuid from its
digest's set. -/
def idxRemove : List (String × List String) → String → String → List (String × List String)
  | [], _, _ => []
  | e :: rest, d, u =>
    if e.1 = d then (e.1, e.2.filter (fun v => decide (v ≠ u))) :: rest
    else e :: idxRemove rest d u

/-- `File.index` (file.js lines 97-99): `if (this.hash)
this.root().index(this)`; the root's index is the spec-modelled
`idxInsert`. A truthy non-string hash never arises from the constructor
or from the documented xstat interface, so only the string case reaches
the index. -/
def fIndex (s : Sys) : Sys :=
  if s.file.hash.truthy then
    match s.file.hash with
    | .jstr d => { s with idx := idxInsert s.idx d s.file.uuid }
    | _ => s
  else s

/-- `File.unindex` (file.js lines 104-106). -/
def fUnindex (s : Sys) : Sys :=
  if s.file.hash.truthy then
    match s.file.hash with
    | .jstr d => { s with idx := idxRemove s.idx d s.file.uuid }
    | _ => s
  else s

/-- `File.startWorker` (file.js lines 111-135): starts a job only when
the file has no (truthy) hash, is not paused and `hashFail < 5`; the
job's path is the file's current abspath, whose varying component is the
name. The handle is overwritten without checking that it is empty. -/
def startWorker (s : Sys) : Sys :=
  if s.file.hash.truthy = false ∧ s.file.paused = false ∧ s.file.hashFail < 5 then
    { s with
      file := { s.file with worker := some s.nextId }
      jobs := s.jobs ++ [{ id := s.nextId, path := s.file.name, cancelled := false }]
      nextId := s.nextId + 1 }
  else s

/-- `File.stopWorker` (file.js lines 140-142): `if (this.worker)
this.worker.abort()`. The worker side is modelled from the spec:
`abort()` marks the job cancelled; the acknowledgement (the `EABORT`
error event) arrives asynchronously, so neither the handle nor the job
list changes here. -/
def stopWorker (s : Sys) : Sys :=
  match s.file.worker with
  | some j =>
    { s with jobs := s.jobs.map (fun jb => if jb.id = j then { jb with cancelled := true } else jb) }
  | none => s

/-- Set the `paused` flag (the assignment in `pause`). -/
def setPausedTrue (s : Sys) : Sys := { s with file := { s.file with paused := true } }

/-- The name assignment inside `update`'s name branch. -/
def setName (s : Sys) (n : String) : Sys := { s with file := { s.file with name := n } }

/-- The bare hash assignment inside `update`'s hash branch. -/
def setHashVal (s : Sys) (v : JVal) : Sys := { s with file := { s.file with hash := v } }

/-- The hash branch body of `update` (file.js lines 181-185): unindex
under the old digest, assign, index under the new one. -/
def setHash (s : Sys) (v : JVal) : Sys := fIndex (setHashVal (fUnindex s) v)

/-- `File.attach` (file.js lines 82-86): parent bookkeeping (abstracted
to the `attached` flag), then `index()`, then `startWorker()`. -/
def attach (s : Sys) : Sys := startWorker (fIndex { s with attached := true })

/-- `File.detach` (file.js lines 88-92): `stopWorker()`, `unindex()`,
then the parent reference is cleared. -/
def detach (s : Sys) : Sys := { fUnindex (stopWorker s) with attached := false }

/-- `File.pause` (file.js lines 147-153). -/
def pause (s : Sys) : Except String Sys :=
  if s.file.paused then .error "paused"
  else .ok (setPausedTrue (stopWorker s))

/-- `File.resume` (file.js lines 158-162). -/
def resume (s : Sys) : Sys :=
  startWorker { s with file := { s.file with paused := false } }

/-- The name branch of `update` (file.js lines 175-179): when the name
differs, stop the worker, set the new name, start a new worker. -/
def nameBranch (s : Sys) (x : Xstat) : Sys :=
  if s.file.name = x.name then s else startWorker (setName (stopWorker s) x.name)

/-- The hash branch of `update` (file.js lines 181-185). -/
def hashBranch (s : Sys) (x : Xstat) : Sys :=
  if s.file.hash = x.hash then s else setHash s x.hash

/-- The trailing `hashFail` reset of `update` (file.js lines 187-189):
reset to 0 when the (new) hash is `undefined`. -/
def resetIfNoHash (s : Sys) : Sys :=
  if s.file.hash = .undef then { s with file := { s.file with hashFail := 0 } } else s

/-- The body of `File.update` after its two throw checks (file.js lines
173-190): early return when neither name nor hash differs, then the name
branch, the hash branch and the reset. -/
def updBody (s : Sys) (x : Xstat) : Sys :=
  if s.file.name = x.name ∧ s.file.hash = x.hash then s
  else resetIfNoHash (hashBranch (nameBranch s x) x)

/-- `File.update` (file.js lines 168-190). -/
def update (s : Sys) (x : Xstat) : Except String Sys :=
  if x.magic.isStr = false then .error "xstat.magic must be a string"
  else if x.uuid ≠ s.file.uuid then .error "xstat.uuid mismatch"
  else .ok (updBody s x)

/-- Common prefix of both worker callbacks (file.js lines 118 and 130):
`this.worker = null`, and the job itself terminates (leaves the
outstanding set). The assignment is unconditional: it clears whatever
handle the file currently holds, even when the event comes from an older
job. -/
def clearJob (s : Sys) (j : Nat) : Sys :=
  { s with jobs := s.jobs.filter (fun jb => decide (jb.id ≠ j))
           file := { s.file with worker := none } }

/-- The `error` callback registered by `startWorker` (file.js lines
117-127) firing for job `j` with error `code`: path-missing codes notify
the directory, `EABORT` is silent, anything else retries immediately via
`startWorker`. No failure counting appears in the handler. -/
def deliverError (s : Sys) (j : Nat) (code : String) : Sys :=
  if code = "ENOTDIR" ∨ code = "ENOENT" then
    { clearJob s j with missingNotes := s.missingNotes ++ [code] }
  else if code = "EABORT" then clearJob s j
  else startWorker (clearJob s j)

/-- The `finish` callback (file.js lines 129-132): clear the handle and
feed the worker's xstat to `update`. -/
def deliverFinish (s : Sys) (j : Nat) (x : Xstat) : Except String Sys :=
  update (clearJob s j) x

/-- Look up an outstanding job by id. -/
def findJob (jobs : List Job) (j : Nat) : Option Job :=
  jobs.find? (fun jb => decide (jb.id = j))

/-- A fresh, not yet attached system around a constructed file. -/
def newSys (f : FileSt) : Sys :=
  { file := f, jobs := [], nextId := 0, idx := [], attached := false, missingNotes := [] }

/-- Digest field of an xstat as documented by the external interface
(spec section 6): absent, or a fixed-length 64 character hex string.
Only the length is used by the development. -/
def wfXstat (x : Xstat) : Prop :=
  x.hash = .undef ∨ ∃ h, x.hash = .jstr h ∧ h.length = 64

/-- One step of the file's lifecycle: an external call while attached
(update from reconciliation, pause, resume), detach, or an asynchronous
worker event. Worker events follow the spec's worker model: a cancelled
job acknowledges with `EABORT` and emits nothing else; a live job may
fail with any non-`EABORT` code or finish with a well-formed xstat
carrying this file's uuid. -/
inductive Step : Sys → Sys → Prop where
  | supdate (s : Sys) (x : Xstat) (s' : Sys) :
      s.attached = true → wfXstat x → update s x = .ok s' → Step s s'
  | spause (s s' : Sys) : s.attached = true → pause s = .ok s' → Step s s'
  | sresume (s : Sys) : s.attached = true → Step s (resume s)
  | sdetach (s : Sys) : Step s (detach s)
  | serr (s : Sys) (j : Nat) (jb : Job) (code : String) :
      s.attached = true → findJob s.jobs j = some jb →
      (jb.cancelled = true → code = "EABORT") →
      (jb.cancelled = false → code ≠ "EABORT") →
      Step s (deliverError s j code)
  | sfinish (s : Sys) (j : Nat) (jb : Job) (x : Xstat) (s' : Sys) :
      s.attached = true → findJob s.jobs j = some jb → jb.cancelled = false →
      wfXstat x → x.uuid = s.file.uuid → x.magic.isStr = true →
      deliverFinish s j x = .ok s' → Step s s'

/-- Reachable systems: a file constructed from a well-formed xstat and
attached, then any sequence of lifecycle steps. -/
inductive Reach : Sys → Prop where
  | init (x : Xstat) (f : FileSt) :
      wfXstat x → mkFile x = .ok f → Reach (attach (newSys f))
  | step (s s' : Sys) : Reach s → Step s s' → Reach s'

/-- Well-formed file hash: absent, or a 64 character digest string. -/
def hashWF (v : JVal) : Prop := v = .undef ∨ ∃ h, v = .jstr h ∧ h.length = 64

/-- Master invariant carried through the reachability induction: the
failure counter is 0 (nothing in the source ever increments it), the
hash is well formed, the file sits in the index exactly under its hash
and only while attached, and outstanding job ids are below `nextId`. -/
def INV (s : Sys) : Prop :=
  s.file.hashFail = 0 ∧
  hashWF s.file.hash ∧
  (∀ d, s.file.uuid ∈ idxLookup s.idx d ↔ (s.attached = true ∧ s.file.hash = .jstr d)) ∧
  (∀ jb ∈ s.jobs, jb.id < s.nextId)

/-- Test an `Except` for the error case. -/
def isFailure {α : Type} : Except String α → Bool
  | .error _ => true
  | .ok _ => false

/-- Evaluate an update known to succeed, for trace building. -/
def updateD (s : Sys) (x : Xstat) : Sys := (update s x).toOption.getD s

/-- Evaluate a pause known to succeed, for trace building. -/
def pauseD (s : Sys) : Sys := (pause s).toOption.getD s

/-- Sample hashless xstat. -/
def xA : Xstat := { uuid := "u1", name := "f1", magic := .jstr "JPEG", hash := .undef }

/-- The file the constructor builds from `xA`. -/
def fA : FileSt :=
  { uuid := "u1", name := "f1", magic := "JPEG", hash := .undef,
    worker := none, hashFail := 0, paused := false }

/-- Freshly attached hashless file: the attach starts job 0. -/
def sA : Sys := attach (newSys fA)

/-- `xA` renamed (same uuid, still no digest). -/
def xB : Xstat := { uuid := "u1", name := "g1", magic := .jstr "JPEG", hash := .undef }

/-- `sA` after the rename update `xB`: the old job 0 is aborted (its
acknowledgement still pending) and a new job 1 starts against the new
path. -/
def sB1 : Sys := updateD sA xB

/-- `sB1` after job 0 acknowledges its abort. -/
def sB2 : Sys := deliverError sB1 0 "EABORT"

/-- Five consecutive transient I/O failures (`EIO`) delivered to the
successive jobs of a freshly attached hashless file. -/
def sEio5 : Sys :=
  deliverError (deliverError (deliverError (deliverError
    (deliverError sA 0 "EIO") 1 "EIO") 2 "EIO") 3 "EIO") 4 "EIO"

/-- A 64 character digest string. -/
def h64 : String := "0123456789abcdef0123456789abcdef0123456789abcdef0123456789abcdef"

/-- Sample hashed xstat. -/
def xH : Xstat := { uuid := "u2", name := "h1", magic := .jstr "JPEG", hash := .jstr h64 }

/-- The file the constructor builds from `xH`. -/
def fH : FileSt :=
  { uuid := "u2", name := "h1", magic := "JPEG", hash := .jstr h64,
    worker := none, hashFail := 0, paused := false }

/-- Freshly attached hashed file: attach indexes it and starts no job. -/
def sH : Sys := attach (newSys fH)

/-- `xH` renamed, digest unchanged. -/
def xH2 : Xstat := { uuid := "u2", name := "h2", magic := .jstr "JPEG", hash := .jstr h64 }

/-- An xstat with a definite magic string but a numeric hash. -/
def xBad : Xstat := { uuid := "u3", name := "b1", magic := .jstr "JPEG", hash := .jnum 1 }

/-- The initial transfer state satisfies the data-phase invariant. -/
lemma tinv_init (seg : Nat) (hseg : 0 < seg) :
    TInv seg [] { size := 0, hashArr := [], acc := [] } := by
  exact ⟨0, by simp, hseg, by simp, by simp⟩

/-- Full segments already inside `p` are untouched by appending `c`. -/
lemma seg_take_append (seg : Nat) (p c : List Nat) (n : Nat) (h : n + seg ≤ p.length) :
    ((p ++ c).drop n).take seg = (p.drop n).take seg := by
  rw [List.drop_append_of_le_length (by omega)]
  exact List.take_append_of_le_length (by simp; omega)

/-- The `data` handler preserves the data-phase invariant for chunks no
longer than a segment (read streams deliver chunks far below 1 GiB). -/
lemma onData_tinv (seg : Nat) (p c : List Nat) (st : TState)
    (hseg : 0 < seg) (hc : c.length ≤ seg) (h : TInv seg p st) :
    TInv seg (p ++ c) (onData seg st c) := by
  obtain ⟨k, hlen, hsz, hacc, harr⟩ := h
  have hsegk : seg * k ≤ p.length := by omega
  have hmaplem : ∀ k', seg * k' ≤ p.length →
      (List.range k').map (fun i => Dg.leaf (((p ++ c).drop (seg * i)).take seg)) =
      (List.range k').map (fun i => Dg.leaf ((p.drop (seg * i)).take seg)) := by
    intro k' hk'
    refine List.map_congr_left ?_
    intro i hi
    have hik : i + 1 ≤ k' := List.mem_range.mp hi
    have : seg * i + seg ≤ seg * k' := by
      calc seg * i + seg = seg * (i + 1) := by ring
        _ ≤ seg * k' := Nat.mul_le_mul_left seg hik
    rw [seg_take_append seg p c (seg * i) (by omega)]
  unfold onData
  by_cases hb : seg ≤ st.size + c.length
  · rw [if_pos hb]
    have hlenacc : st.acc.length = st.size := by
      rw [hacc, List.length_drop]; omega
    have hk1 : seg * (k + 1) = seg * k + seg := by ring
    refine ⟨k + 1, ?_, ?_, ?_, ?_⟩
    · simp only [List.length_append, List.length_drop]
      omega
    · simp only [List.length_drop]; omega
    · have h2 : seg * (k + 1) = p.length + (seg - st.size) := by omega
      rw [h2, List.drop_append]
    · rw [List.range_succ, List.map_append, hmaplem k hsegk, ← harr]
      simp only [List.map_cons, List.map_nil]
      have hdp : (p ++ c).drop (seg * k) = st.acc ++ c := by
        rw [List.drop_append_of_le_length hsegk, ← hacc]
      have htk : ((p ++ c).drop (seg * k)).take seg = st.acc ++ c.take (seg - st.size) := by
        rw [hdp]
        have h1 : seg = st.acc.length + (seg - st.size) := by omega
        calc (st.acc ++ c).take seg
            = (st.acc ++ c).take (st.acc.length + (seg - st.size)) := by rw [← h1]
          _ = st.acc ++ c.take (seg - st.size) := List.take_append (seg - st.size)
      rw [htk]
  · rw [if_neg hb]
    refine ⟨k, ?_, ?_, ?_, ?_⟩
    · simp only [List.length_append]; omega
    · show st.size + c.length < seg
      omega
    · rw [List.drop_append_of_le_length hsegk, hacc]
    · rw [hmaplem k hsegk, harr]

/-- The data phase establishes the invariant for the whole content. -/
lemma runChunks_tinv (seg : Nat) (hseg : 0 < seg) :
    ∀ (chunks : List (List Nat)) (p : List Nat) (st : TState),
      (∀ c ∈ chunks, c.length ≤ seg) → TInv seg p st →
      TInv seg (p ++ chunks.flatten) (chunks.foldl (onData seg) st) := by
  intro chunks
  induction chunks with
  | nil => intro p st _ h; simpa using h
  | cons c cs ih =>
    intro p st hc h
    have h1 : TInv seg (p ++ c) (onData seg st c) :=
      onData_tinv seg p c st hseg (hc c (by simp)) h
    have h2 := ih (p ++ c) (onData seg st c) (fun d hd => hc d (by simp [hd])) h1
    simpa [List.append_assoc] using h2

/-- The invariant at the end of the stream. -/
lemma storeFile_tinv (seg : Nat) (chunks : List (List Nat))
    (hseg : 0 < seg) (hc : ∀ c ∈ chunks, c.length ≤ seg) :
    TInv seg chunks.flatten (runChunks seg chunks) := by
  have := runChunks_tinv seg hseg chunks []
    { size := 0, hashArr := [], acc := [] } hc (tinv_init seg hseg)
  simpa [runChunks] using this

/-- The close handler on a state with exactly two pushed leaves. -/
lemma onClose_two (sz : Nat) (a b : Dg) (ac : List Nat) :
    onClose { size := sz, hashArr := [a, b], acc := ac } =
      (Dg.comb (Dg.comb a b) (Dg.leaf ac), [a, b, Dg.leaf ac]) := rfl

/-- The close handler on a state with no pushed leaf. -/
lemma onClose_none (sz : Nat) (ac : List Nat) :
    onClose { size := sz, hashArr := [], acc := ac } =
      (Dg.leaf ac, [Dg.leaf ac]) := rfl

/-- Claim C6: for content of exactly two full segments plus a nonempty
proper remainder `r` (2.5 segment-sizes is the instance `r = seg / 2`),
`storeFile` pushes the three leaf digests in offset order and the final
digest is the left-to-right chain `comb (comb l0 l1) l2`; and for
content shorter than one segment the single leaf digest is the file
digest directly, with no combination step. Chunks are assumed no longer
than a segment (read streams deliver chunks far below `SIZE_1G`). -/
theorem chunked_combine_correct (seg : Nat) (chunks : List (List Nat)) (r : Nat)
    (hseg : 0 < seg) (hc : ∀ c ∈ chunks, c.length ≤ seg) :
    (chunks.flatten.length = 2 * seg + r → 0 < r → r < seg →
      storeFile seg chunks =
        (Dg.comb (Dg.comb (Dg.leaf (chunks.flatten.take seg))
            (Dg.leaf ((chunks.flatten.drop seg).take seg)))
          (Dg.leaf (chunks.flatten.drop (2 * seg))),
         [Dg.leaf (chunks.flatten.take seg),
          Dg.leaf ((chunks.flatten.drop seg).take seg),
          Dg.leaf (chunks.flatten.drop (2 * seg))])) ∧
    (chunks.flatten.length < seg →
      storeFile seg chunks = (Dg.leaf chunks.flatten, [Dg.leaf chunks.flatten])) := by
  obtain ⟨k, hlen, hsz, hacc, harr⟩ := storeFile_tinv seg chunks hseg hc
  constructor
  · intro h2 hr0 hrs
    have hk2 : k = 2 := by
      have hle : k ≤ 2 := by
        by_contra hgt
        have h3 : seg * 3 ≤ seg * k := Nat.mul_le_mul_left seg (by omega)
        have h4 : seg * 3 = 3 * seg := by ring
        omega
      have hge : 2 ≤ k := by
        by_contra hlt
        have h3 : seg * k ≤ seg * 1 := Nat.mul_le_mul_left seg (by omega)
        have h4 : seg * 1 = seg := by ring
        omega
      omega
    subst hk2
    have hsr : (runChunks seg chunks).size = r := by omega
    have hr2 : List.range 2 = [0, 1] := by rfl
    have harr3 : (runChunks seg chunks).hashArr =
        [Dg.leaf (chunks.flatten.take seg), Dg.leaf ((chunks.flatten.drop seg).take seg)] := by
      rw [harr, hr2]
      simp only [List.map_cons, List.map_nil, Nat.mul_zero, Nat.mul_one, List.drop_zero]
    have hacc2 : (runChunks seg chunks).acc = chunks.flatten.drop (2 * seg) := by
      rw [hacc]
      congr 1
      ring
    calc storeFile seg chunks
        = onClose ⟨(runChunks seg chunks).size, (runChunks seg chunks).hashArr,
            (runChunks seg chunks).acc⟩ := rfl
      _ = onClose ⟨r, [Dg.leaf (chunks.flatten.take seg),
            Dg.leaf ((chunks.flatten.drop seg).take seg)],
            chunks.flatten.drop (2 * seg)⟩ := by rw [hsr, harr3, hacc2]
      _ = _ := onClose_two r _ _ _
  · intro hlt
    have hk0 : k = 0 := by
      by_contra hne
      have h3 : seg * 1 ≤ seg * k := Nat.mul_le_mul_left seg (by omega)
      have h4 : seg * 1 = seg := by ring
      omega
    subst hk0
    have hsr : (runChunks seg chunks).hashArr = [] := by
      rw [harr]; rfl
    have hacc2 : (runChunks seg chunks).acc = chunks.flatten := by
      rw [hacc]
      simp
    calc storeFile seg chunks
        = onClose ⟨(runChunks seg chunks).size, (runChunks seg chunks).hashArr,
            (runChunks seg chunks).acc⟩ := rfl
      _ = onClose ⟨(runChunks seg chunks).size, [], chunks.flatten⟩ := by rw [hsr, hacc2]
      _ = _ := onClose_none _ _

/-- Witness for C6 at segment size 4 with 10 = 2.5 segments of content. -/
theorem chunked_combine_correct_witness :
    0 < 4 ∧ (∀ c ∈ [[1,2,3,4],[5,6,7,8],[9,10]], List.length c ≤ 4) ∧
    storeFile 4 [[1,2,3,4],[5,6,7,8],[9,10]] =
      (Dg.comb (Dg.comb (Dg.leaf [1,2,3,4]) (Dg.leaf [5,6,7,8])) (Dg.leaf [9,10]),
       [Dg.leaf [1,2,3,4], Dg.leaf [5,6,7,8], Dg.leaf [9,10]]) := by
  refine ⟨by decide, by decide, ?_⟩
  exact (chunked_combine_correct 4 [[1,2,3,4],[5,6,7,8],[9,10]] 2
    (by decide) (by decide)).1 (by decide) (by decide) (by decide)

/-- Claim C3 (refuting): for content that is an exact positive multiple
of the segment size the code pushes an extra empty trailing leaf at
stream close: two exact segments yield three leaves ending in
`Dg.leaf []` (the empty-content digest), and even a single exact segment
yields two leaves and a combined — not the single-leaf — file digest.
Shown at segment size 4 for the parametric model (the code hard-codes
`SIZE_1G`). -/
theorem exact_segments_extra_empty_leaf :
    (storeFile 4 [[1,2,3,4],[5,6,7,8]]).2 =
      [Dg.leaf [1,2,3,4], Dg.leaf [5,6,7,8], Dg.leaf []] ∧
    (storeFile 4 [[1,2,3,4]]).2 = [Dg.leaf [1,2,3,4], Dg.leaf []] ∧
    (storeFile 4 [[1,2,3,4]]).1 = Dg.comb (Dg.leaf [1,2,3,4]) (Dg.leaf []) := by
  exact ⟨rfl, rfl, rfl⟩

@[simp] lemma startWorker_uuid (s : Sys) : (startWorker s).file.uuid = s.file.uuid := by
  unfold startWorker; split <;> rfl

@[simp] lemma startWorker_name (s : Sys) : (startWorker s).file.name = s.file.name := by
  unfold startWorker; split <;> rfl

@[simp] lemma startWorker_magic (s : Sys) : (startWorker s).file.magic = s.file.magic := by
  unfold startWorker; split <;> rfl

@[simp] lemma startWorker_hash (s : Sys) : (startWorker s).file.hash = s.file.hash := by
  unfold startWorker; split <;> rfl

@[simp] lemma startWorker_hashFail (s : Sys) :
    (startWorker s).file.hashFail = s.file.hashFail := by
  unfold startWorker; split <;> rfl

@[simp] lemma startWorker_paused (s : Sys) : (startWorker s).file.paused = s.file.paused := by
  unfold startWorker; split <;> rfl

@[simp] lemma startWorker_idx (s : Sys) : (startWorker s).idx = s.idx := by
  unfold startWorker; split <;> rfl

@[simp] lemma startWorker_attached (s : Sys) : (startWorker s).attached = s.attached := by
  unfold startWorker; split <;> rfl

@[simp] lemma stopWorker_file (s : Sys) : (stopWorker s).file = s.file := by
  unfold stopWorker; split <;> rfl

@[simp] lemma stopWorker_idx (s : Sys) : (stopWorker s).idx = s.idx := by
  unfold stopWorker; split <;> rfl

@[simp] lemma stopWorker_attached (s : Sys) : (stopWorker s).attached = s.attached := by
  unfold stopWorker; split <;> rfl

@[simp] lemma stopWorker_nextId (s : Sys) : (stopWorker s).nextId = s.nextId := by
  unfold stopWorker; split <;> rfl

@[simp] lemma fIndex_file (s : Sys) : (fIndex s).file = s.file := by
  unfold fIndex
  split
  · split <;> rfl
  · rfl

@[simp] lemma fIndex_jobs (s : Sys) : (fIndex s).jobs = s.jobs := by
  unfold fIndex
  split
  · split <;> rfl
  · rfl

@[simp] lemma fIndex_nextId (s : Sys) : (fIndex s).nextId = s.nextId := by
  unfold fIndex
  split
  · split <;> rfl
  · rfl

@[simp] lemma fIndex_attached (s : Sys) : (fIndex s).attached = s.attached := by
  unfold fIndex
  split
  · split <;> rfl
  · rfl

@[simp] lemma fUnindex_file (s : Sys) : (fUnindex s).file = s.file := by
  unfold fUnindex
  split
  · split <;> rfl
  · rfl

@[simp] lemma fUnindex_jobs (s : Sys) : (fUnindex s).jobs = s.jobs := by
  unfold fUnindex
  split
  · split <;> rfl
  · rfl

@[simp] lemma fUnindex_nextId (s : Sys) : (fUnindex s).nextId = s.nextId := by
  unfold fUnindex
  split
  · split <;> rfl
  · rfl

@[simp] lemma fUnindex_attached (s : Sys) : (fUnindex s).attached = s.attached := by
  unfold fUnindex
  split
  · split <;> rfl
  · rfl

@[simp] lemma setHash_hash (s : Sys) (v : JVal) : (setHash s v).file.hash = v := by
  unfold setHash
  rw [fIndex_file]
  rfl

@[simp] lemma setHash_uuid (s : Sys) (v : JVal) : (setHash s v).file.uuid = s.file.uuid := by
  unfold setHash
  rw [fIndex_file]
  show (fUnindex s).file.uuid = s.file.uuid
  rw [fUnindex_file]

@[simp] lemma setHash_name (s : Sys) (v : JVal) : (setHash s v).file.name = s.file.name := by
  unfold setHash
  rw [fIndex_file]
  show (fUnindex s).file.name = s.file.name
  rw [fUnindex_file]

@[simp] lemma setHash_magic (s : Sys) (v : JVal) : (setHash s v).file.magic = s.file.magic := by
  unfold setHash
  rw [fIndex_file]
  show (fUnindex s).file.magic = s.file.magic
  rw [fUnindex_file]

@[simp] lemma setHash_paused (s : Sys) (v : JVal) :
    (setHash s v).file.paused = s.file.paused := by
  unfold setHash
  rw [fIndex_file]
  show (fUnindex s).file.paused = s.file.paused
  rw [fUnindex_file]

@[simp] lemma setHash_hashFail (s : Sys) (v : JVal) :
    (setHash s v).file.hashFail = s.file.hashFail := by
  unfold setHash
  rw [fIndex_file]
  show (fUnindex s).file.hashFail = s.file.hashFail
  rw [fUnindex_file]

@[simp] lemma setHash_worker (s : Sys) (v : JVal) :
    (setHash s v).file.worker = s.file.worker := by
  unfold setHash
  rw [fIndex_file]
  show (fUnindex s).file.worker = s.file.worker
  rw [fUnindex_file]

@[simp] lemma setHash_jobs (s : Sys) (v : JVal) : (setHash s v).jobs = s.jobs := by
  unfold setHash
  rw [fIndex_jobs]
  show (fUnindex s).jobs = s.jobs
  rw [fUnindex_jobs]

@[simp] lemma setHash_nextId (s : Sys) (v : JVal) : (setHash s v).nextId = s.nextId := by
  unfold setHash
  rw [fIndex_nextId]
  show (fUnindex s).nextId = s.nextId
  rw [fUnindex_nextId]

@[simp] lemma setHash_attached (s : Sys) (v : JVal) :
    (setHash s v).attached = s.attached := by
  unfold setHash
  rw [fIndex_attached]
  show (fUnindex s).attached = s.attached
  rw [fUnindex_attached]

/-- Lookup after a spec-modelled index insertion, equationally. -/
lemma idxLookup_insert (idx : List (String × List String)) (d u d' : String) :
    idxLookup (idxInsert idx d u) d' =
      if d' = d then (if u ∈ idxLookup idx d then idxLookup idx d else u :: idxLookup idx d)
      else idxLookup idx d' := by
  induction idx with
  | nil =>
    show idxLookup [(d, [u])] d' = _
    by_cases h : d' = d
    · rw [if_pos h]
      show (if d = d' then [u] else []) = _
      rw [if_pos h.symm]
      show [u] = if u ∈ ([] : List String) then [] else [u]
      rw [if_neg (List.not_mem_nil u)]
    · rw [if_neg h]
      show (if d = d' then [u] else []) = []
      rw [if_neg (fun he => h he.symm)]
  | cons e rest ih =>
    simp only [idxInsert]
    by_cases h1 : e.1 = d
    · rw [if_pos h1]
      simp only [idxLookup]
      by_cases h2 : e.1 = d'
      · have hdd : d' = d := by rw [← h2, h1]
        rw [if_pos h2, if_pos hdd, if_pos h1]
      · have hdd : ¬(d' = d) := fun he => h2 (by rw [h1, he])
        rw [if_neg h2, if_neg hdd, if_neg h2]
    · rw [if_neg h1]
      simp only [idxLookup]
      by_cases h2 : e.1 = d'
      · have hdd : ¬(d' = d) := fun he => h1 (by rw [h2, he])
        rw [if_pos h2, if_neg hdd, if_pos h2]
      · rw [if_neg h2, ih, if_neg h1, if_neg h2]

/-- Lookup after a spec-modelled index removal, equationally. -/
lemma idxLookup_remove (idx : List (String × List String)) (d u d' : String) :
    idxLookup (idxRemove idx d u) d' =
      if d' = d then (idxLookup idx d).filter (fun v => decide (v ≠ u))
      else idxLookup idx d' := by
  induction idx with
  | nil =>
    show ([] : List String) = _
    by_cases h : d' = d
    · rw [if_pos h]
      rfl
    · rw [if_neg h]
      rfl
  | cons e rest ih =>
    simp only [idxRemove]
    by_cases h1 : e.1 = d
    · rw [if_pos h1]
      simp only [idxLookup]
      by_cases h2 : e.1 = d'
      · have hdd : d' = d := by rw [← h2, h1]
        rw [if_pos h2, if_pos hdd, if_pos h1]
      · have hdd : ¬(d' = d) := fun he => h2 (by rw [h1, he])
        rw [if_neg h2, if_neg hdd, if_neg h2]
    · rw [if_neg h1]
      simp only [idxLookup]
      by_cases h2 : e.1 = d'
      · have hdd : ¬(d' = d) := fun he => h1 (by rw [h2, he])
        rw [if_pos h2, if_neg hdd, if_pos h2]
      · rw [if_neg h2, ih, if_neg h1, if_neg h2]

/-- Membership after a spec-modelled index insertion. -/
lemma mem_idxLookup_insert (idx : List (String × List String)) (d u d' u' : String) :
    u' ∈ idxLookup (idxInsert idx d u) d' ↔
      (u' ∈ idxLookup idx d' ∨ (u' = u ∧ d' = d)) := by
  rw [idxLookup_insert]
  by_cases h : d' = d
  · rw [if_pos h]
    subst h
    by_cases hu : u ∈ idxLookup idx d'
    · rw [if_pos hu]
      constructor
      · exact fun h1 => Or.inl h1
      · rintro (h1 | ⟨h1, _⟩)
        · exact h1
        · rw [h1]
          exact hu
    · rw [if_neg hu]
      simp only [List.mem_cons]
      tauto
  · rw [if_neg h]
    constructor
    · exact fun h1 => Or.inl h1
    · rintro (h1 | ⟨_, h2⟩)
      · exact h1
      · exact absurd h2 h

/-- Membership after a spec-modelled index removal. -/
lemma mem_idxLookup_remove (idx : List (String × List String)) (d u d' u' : String) :
    u' ∈ idxLookup (idxRemove idx d u) d' ↔
      (u' ∈ idxLookup idx d' ∧ ¬(u' = u ∧ d' = d)) := by
  rw [idxLookup_remove]
  by_cases h : d' = d
  · rw [if_pos h]
    subst h
    rw [List.mem_filter]
    simp only [decide_eq_true_eq]
    tauto
  · rw [if_neg h]
    tauto

/-- A well-formed digest string is truthy (nonempty). -/
lemma hashWF_truthy (h : String) (hlen : h.length = 64) : JVal.truthy (.jstr h) = true := by
  unfold JVal.truthy
  have : h ≠ "" := by
    intro he
    subst he
    simp at hlen
  simp [this]

/-- Membership in the index after `File.index`. -/
lemma mem_fIndex (s : Sys) (hwf : hashWF s.file.hash) (u d : String) :
    u ∈ idxLookup (fIndex s).idx d ↔
      (u ∈ idxLookup s.idx d ∨ (u = s.file.uuid ∧ s.file.hash = .jstr d)) := by
  rcases hwf with h | ⟨hh, hv, hlen⟩
  · unfold fIndex
    rw [h]
    simp [JVal.truthy]
  · unfold fIndex
    rw [hv, hashWF_truthy hh hlen]
    simp only [if_true]
    show u ∈ idxLookup (idxInsert s.idx hh s.file.uuid) d ↔ _
    rw [mem_idxLookup_insert]
    constructor
    · rintro (h1 | ⟨h1, h2⟩)
      · exact Or.inl h1
      · refine Or.inr ⟨h1, ?_⟩
        rw [h2]
    · rintro (h1 | ⟨h1, h2⟩)
      · exact Or.inl h1
      · exact Or.inr ⟨h1, (JVal.jstr.inj h2).symm⟩

/-- Membership in the index after `File.unindex`. -/
lemma mem_fUnindex (s : Sys) (hwf : hashWF s.file.hash) (u d : String) :
    u ∈ idxLookup (fUnindex s).idx d ↔
      (u ∈ idxLookup s.idx d ∧ ¬(u = s.file.uuid ∧ s.file.hash = .jstr d)) := by
  rcases hwf with h | ⟨hh, hv, hlen⟩
  · unfold fUnindex
    rw [h]
    simp [JVal.truthy]
  · unfold fUnindex
    rw [hv, hashWF_truthy hh hlen]
    simp only [if_true]
    show u ∈ idxLookup (idxRemove s.idx hh s.file.uuid) d ↔ _
    rw [mem_idxLookup_remove]
    constructor
    · rintro ⟨h1, h2⟩
      refine ⟨h1, ?_⟩
      rintro ⟨hu, hd⟩
      exact h2 ⟨hu, (JVal.jstr.inj hd).symm⟩
    · rintro ⟨h1, h2⟩
      refine ⟨h1, ?_⟩
      rintro ⟨hu, hd⟩
      refine h2 ⟨hu, ?_⟩
      rw [hd]

/-- `startWorker` preserves the master invariant. -/
lemma inv_startWorker (s : Sys) (h : INV s) : INV (startWorker s) := by
  obtain ⟨h1, h2, h3, h4⟩ := h
  unfold startWorker
  split
  · refine ⟨h1, h2, h3, ?_⟩
    intro jb hm
    rcases List.mem_append.mp hm with hm1 | hm2
    · have := h4 jb hm1
      show jb.id < s.nextId + 1
      omega
    · have hj : jb = { id := s.nextId, path := s.file.name, cancelled := false } :=
        List.mem_singleton.mp hm2
      rw [hj]
      show s.nextId < s.nextId + 1
      omega
  · exact ⟨h1, h2, h3, h4⟩

/-- `stopWorker` preserves the master invariant. -/
lemma inv_stopWorker (s : Sys) (h : INV s) : INV (stopWorker s) := by
  obtain ⟨h1, h2, h3, h4⟩ := h
  unfold stopWorker
  split
  · rename_i xw j heq
    refine ⟨h1, h2, h3, ?_⟩
    intro jb hm
    obtain ⟨a, ha, heq2⟩ := List.mem_map.mp hm
    rw [← heq2]
    by_cases hid : a.id = j
    · rw [if_pos hid]
      exact h4 a ha
    · rw [if_neg hid]
      exact h4 a ha
  · exact ⟨h1, h2, h3, h4⟩

/-- `clearJob` preserves the master invariant. -/
lemma inv_clearJob (s : Sys) (j : Nat) (h : INV s) : INV (clearJob s j) := by
  obtain ⟨h1, h2, h3, h4⟩ := h
  refine ⟨h1, h2, h3, ?_⟩
  intro jb hm
  exact h4 jb (List.mem_filter.mp hm).1

/-- Fields produced by a successful construction. -/
lemma mkFile_ok (x : Xstat) (f : FileSt) (h : mkFile x = .ok f) :
    f.uuid = x.uuid ∧ f.hash = x.hash ∧ f.worker = none ∧ f.hashFail = 0 ∧
      f.paused = false ∧ f.name = x.name := by
  unfold mkFile at h
  split at h
  · exact Except.noConfusion h
  · split at h
    · exact Except.noConfusion h
    · injection h with h'
      rw [← h']
      exact ⟨rfl, rfl, rfl, rfl, rfl, rfl⟩

/-- A freshly constructed and attached file satisfies the invariant. -/
lemma inv_attach_init (x : Xstat) (f : FileSt) (hwx : wfXstat x) (hok : mkFile x = .ok f) :
    INV (attach (newSys f)) := by
  obtain ⟨hu, hh, hw, hf, hp, hn⟩ := mkFile_ok x f hok
  have hwf : hashWF f.hash := by
    rw [hh]
    exact hwx
  apply inv_startWorker
  refine ⟨?_, ?_, ?_, ?_⟩
  · rw [fIndex_file]
    exact hf
  · rw [fIndex_file]
    exact hwf
  · intro d
    rw [fIndex_file, fIndex_attached]
    rw [mem_fIndex _ hwf]
    constructor
    · rintro (hm1 | ⟨_, hm2⟩)
      · exact absurd hm1 (List.not_mem_nil _)
      · exact ⟨rfl, hm2⟩
    · rintro ⟨_, hm2⟩
      exact Or.inr ⟨rfl, hm2⟩
  · intro jb hm
    rw [fIndex_jobs] at hm
    exact absurd hm (List.not_mem_nil jb)

/-- `setHash` preserves the invariant for an attached file and a
well-formed new hash. -/
lemma inv_setHash (s : Sys) (v : JVal) (h : INV s) (hatt : s.attached = true)
    (hv : hashWF v) : INV (setHash s v) := by
  obtain ⟨h1, h2, h3, h4⟩ := h
  refine ⟨?_, ?_, ?_, ?_⟩
  · rw [setHash_hashFail]
    exact h1
  · rw [setHash_hash]
    exact hv
  · intro d
    rw [setHash_uuid, setHash_hash, setHash_attached]
    unfold setHash
    have hmid : hashWF (setHashVal (fUnindex s) v).file.hash := hv
    rw [mem_fIndex _ hmid]
    have e1 : (setHashVal (fUnindex s) v).idx = (fUnindex s).idx := rfl
    have e2 : (setHashVal (fUnindex s) v).file.uuid = s.file.uuid := by
      show (fUnindex s).file.uuid = s.file.uuid
      rw [fUnindex_file]
    have e3 : (setHashVal (fUnindex s) v).file.hash = v := rfl
    rw [e1, e2, e3, mem_fUnindex s h2]
    constructor
    · rintro (⟨hm1, hm2⟩ | ⟨_, hm2⟩)
      · exact absurd ⟨rfl, ((h3 d).mp hm1).2⟩ hm2
      · exact ⟨hatt, hm2⟩
    · rintro ⟨_, hm2⟩
      exact Or.inr ⟨rfl, hm2⟩
  · rw [setHash_jobs, setHash_nextId]
    exact h4

/-- The name branch of `update` preserves the invariant. -/
lemma inv_nameBranch (s : Sys) (x : Xstat) (h : INV s) : INV (nameBranch s x) := by
  unfold nameBranch
  split
  · exact h
  · apply inv_startWorker
    obtain ⟨h1, h2, h3, h4⟩ := inv_stopWorker s h
    exact ⟨h1, h2, h3, h4⟩

@[simp] lemma nameBranch_attached (s : Sys) (x : Xstat) :
    (nameBranch s x).attached = s.attached := by
  unfold nameBranch
  split
  · rfl
  · rw [startWorker_attached]
    show (stopWorker s).attached = s.attached
    rw [stopWorker_attached]

/-- The trailing reset of `update` preserves the invariant. -/
lemma inv_reset (s : Sys) (h : INV s) : INV (resetIfNoHash s) := by
  obtain ⟨h1, h2, h3, h4⟩ := h
  unfold resetIfNoHash
  split
  · exact ⟨rfl, h2, h3, h4⟩
  · exact ⟨h1, h2, h3, h4⟩

/-- The hash branch of `update` preserves the invariant. -/
lemma inv_hashBranch (s : Sys) (x : Xstat) (h : INV s) (hatt : s.attached = true)
    (hwx : wfXstat x) : INV (hashBranch s x) := by
  unfold hashBranch
  split
  · exact h
  · exact inv_setHash s x.hash h hatt hwx

/-- The body of `update` preserves the invariant. -/
lemma inv_updBody (s : Sys) (x : Xstat) (h : INV s) (hatt : s.attached = true)
    (hwx : wfXstat x) : INV (updBody s x) := by
  unfold updBody
  split
  · exact h
  · apply inv_reset
    apply inv_hashBranch
    · exact inv_nameBranch s x h
    · rw [nameBranch_attached]
      exact hatt
    · exact hwx

/-- `update` preserves the invariant. -/
lemma inv_update (s : Sys) (x : Xstat) (s' : Sys) (h : INV s) (hatt : s.attached = true)
    (hwx : wfXstat x) (hok : update s x = .ok s') : INV s' := by
  unfold update at hok
  split at hok
  · exact Except.noConfusion hok
  · split at hok
    · exact Except.noConfusion hok
    · injection hok with h'
      rw [← h']
      exact inv_updBody s x h hatt hwx

/-- `pause` preserves the invariant. -/
lemma inv_pause (s : Sys) (s' : Sys) (h : INV s) (hok : pause s = .ok s') : INV s' := by
  unfold pause at hok
  split at hok
  · exact Except.noConfusion hok
  · injection hok with h'
    rw [← h']
    obtain ⟨h1, h2, h3, h4⟩ := inv_stopWorker s h
    exact ⟨h1, h2, h3, h4⟩

/-- `resume` preserves the invariant. -/
lemma inv_resume (s : Sys) (h : INV s) : INV (resume s) := by
  apply inv_startWorker
  obtain ⟨h1, h2, h3, h4⟩ := h
  exact ⟨h1, h2, h3, h4⟩

/-- `detach` preserves the invariant (and unindexes the file). -/
lemma inv_detach (s : Sys) (h : INV s) : INV (detach s) := by
  obtain ⟨g1, g2, g3, g4⟩ := h
  obtain ⟨_, _, _, h4⟩ := inv_stopWorker s ⟨g1, g2, g3, g4⟩
  have hfile : (detach s).file = s.file := by
    show (fUnindex (stopWorker s)).file = s.file
    rw [fUnindex_file, stopWorker_file]
  have hidx : (detach s).idx = (fUnindex (stopWorker s)).idx := rfl
  have hjobs : (detach s).jobs = (stopWorker s).jobs := by
    show (fUnindex (stopWorker s)).jobs = (stopWorker s).jobs
    rw [fUnindex_jobs]
  have hnext : (detach s).nextId = (stopWorker s).nextId := by
    show (fUnindex (stopWorker s)).nextId = (stopWorker s).nextId
    rw [fUnindex_nextId]
  refine ⟨?_, ?_, ?_, ?_⟩
  · rw [hfile]
    exact g1
  · rw [hfile]
    exact g2
  · intro d
    rw [hfile, hidx]
    have hsw : hashWF (stopWorker s).file.hash := by
      rw [stopWorker_file]
      exact g2
    have hmm := mem_fUnindex (stopWorker s) hsw s.file.uuid d
    rw [hmm, stopWorker_idx, stopWorker_file]
    constructor
    · rintro ⟨hm1, hm2⟩
      exact absurd ⟨rfl, ((g3 d).mp hm1).2⟩ hm2
    · rintro ⟨hfalse, _⟩
      exact absurd hfalse (by simp [detach])
  · rw [hjobs, hnext]
    exact h4

/-- The `error` callback preserves the invariant. -/
lemma inv_deliverError (s : Sys) (j : Nat) (code : String) (h : INV s) :
    INV (deliverError s j code) := by
  have hc := inv_clearJob s j h
  unfold deliverError
  split
  · obtain ⟨h1, h2, h3, h4⟩ := hc
    exact ⟨h1, h2, h3, h4⟩
  · split
    · exact hc
    · exact inv_startWorker _ hc

/-- The `finish` callback preserves the invariant. -/
lemma inv_deliverFinish (s : Sys) (j : Nat) (x : Xstat) (s' : Sys) (h : INV s)
    (hatt : s.attached = true) (hwx : wfXstat x)
    (hok : deliverFinish s j x = .ok s') : INV s' :=
  inv_update (clearJob s j) x s' (inv_clearJob s j h) hatt hwx hok

/-- Every reachable system satisfies the master invariant. -/
lemma reach_inv (s : Sys) (h : Reach s) : INV s := by
  induction h with
  | init x f hwx hok => exact inv_attach_init x f hwx hok
  | step s1 s2 hr hstep ih =>
    cases hstep with
    | supdate x s3 hatt hwx hok => exact inv_update s1 x s2 ih hatt hwx hok
    | spause s3 hatt hok => exact inv_pause s1 s2 ih hok
    | sresume hatt => exact inv_resume s1 ih
    | sdetach => exact inv_detach s1 ih
    | serr j jb code hatt hfind hc1 hc2 => exact inv_deliverError s1 j code ih
    | sfinish j jb x s3 hatt hfind hcan hwx huu hmg hok =>
      exact inv_deliverFinish s1 j x s2 ih hatt hwx hok

/-- `stopWorker` on a set handle maps the cancel mark over the jobs. -/
lemma stopWorker_jobs_some (s : Sys) (j : Nat) (hj : s.file.worker = some j) :
    (stopWorker s).jobs =
      s.jobs.map (fun jb => if jb.id = j then { jb with cancelled := true } else jb) := by
  unfold stopWorker
  rw [hj]

/-- After `stopWorker`, every job with the aborted handle's id is marked
cancelled. -/
lemma stopWorker_cancel (s : Sys) (j : Nat) (hj : s.file.worker = some j) :
    ∀ jb ∈ (stopWorker s).jobs, jb.id = j → jb.cancelled = true := by
  rw [stopWorker_jobs_some s j hj]
  intro jb hm hid
  obtain ⟨a, ha, heq⟩ := List.mem_map.mp hm
  by_cases hc : a.id = j
  · rw [if_pos hc] at heq
    rw [← heq]
  · rw [if_neg hc] at heq
    rw [← heq] at hid
    exact absurd hid hc

/-- `startWorker` when its guard holds. -/
lemma startWorker_pos (s : Sys)
    (hg : s.file.hash.truthy = false ∧ s.file.paused = false ∧ s.file.hashFail < 5) :
    startWorker s =
      { s with file := { s.file with worker := some s.nextId }
               jobs := s.jobs ++ [{ id := s.nextId, path := s.file.name, cancelled := false }]
               nextId := s.nextId + 1 } := by
  unfold startWorker
  rw [if_pos hg]

/-- `startWorker` when its guard fails. -/
lemma startWorker_neg (s : Sys)
    (hg : ¬(s.file.hash.truthy = false ∧ s.file.paused = false ∧ s.file.hashFail < 5)) :
    startWorker s = s := by
  unfold startWorker
  rw [if_neg hg]

@[simp] lemma resetIfNoHash_uuid (s : Sys) : (resetIfNoHash s).file.uuid = s.file.uuid := by
  unfold resetIfNoHash; split <;> rfl

@[simp] lemma resetIfNoHash_magic (s : Sys) : (resetIfNoHash s).file.magic = s.file.magic := by
  unfold resetIfNoHash; split <;> rfl

@[simp] lemma resetIfNoHash_paused (s : Sys) :
    (resetIfNoHash s).file.paused = s.file.paused := by
  unfold resetIfNoHash; split <;> rfl

@[simp] lemma resetIfNoHash_name (s : Sys) : (resetIfNoHash s).file.name = s.file.name := by
  unfold resetIfNoHash; split <;> rfl

@[simp] lemma resetIfNoHash_worker (s : Sys) :
    (resetIfNoHash s).file.worker = s.file.worker := by
  unfold resetIfNoHash; split <;> rfl

@[simp] lemma resetIfNoHash_jobs (s : Sys) : (resetIfNoHash s).jobs = s.jobs := by
  unfold resetIfNoHash; split <;> rfl

@[simp] lemma hashBranch_uuid (s : Sys) (x : Xstat) :
    (hashBranch s x).file.uuid = s.file.uuid := by
  unfold hashBranch
  split
  · rfl
  · rw [setHash_uuid]

@[simp] lemma hashBranch_magic (s : Sys) (x : Xstat) :
    (hashBranch s x).file.magic = s.file.magic := by
  unfold hashBranch
  split
  · rfl
  · rw [setHash_magic]

@[simp] lemma hashBranch_paused (s : Sys) (x : Xstat) :
    (hashBranch s x).file.paused = s.file.paused := by
  unfold hashBranch
  split
  · rfl
  · rw [setHash_paused]

@[simp] lemma hashBranch_name (s : Sys) (x : Xstat) :
    (hashBranch s x).file.name = s.file.name := by
  unfold hashBranch
  split
  · rfl
  · rw [setHash_name]

@[simp] lemma hashBranch_worker (s : Sys) (x : Xstat) :
    (hashBranch s x).file.worker = s.file.worker := by
  unfold hashBranch
  split
  · rfl
  · rw [setHash_worker]

@[simp] lemma hashBranch_jobs (s : Sys) (x : Xstat) :
    (hashBranch s x).jobs = s.jobs := by
  unfold hashBranch
  split
  · rfl
  · rw [setHash_jobs]

@[simp] lemma nameBranch_uuid (s : Sys) (x : Xstat) :
    (nameBranch s x).file.uuid = s.file.uuid := by
  unfold nameBranch
  split
  · rfl
  · rw [startWorker_uuid]
    show (stopWorker s).file.uuid = s.file.uuid
    rw [stopWorker_file]

@[simp] lemma nameBranch_magic (s : Sys) (x : Xstat) :
    (nameBranch s x).file.magic = s.file.magic := by
  unfold nameBranch
  split
  · rfl
  · rw [startWorker_magic]
    show (stopWorker s).file.magic = s.file.magic
    rw [stopWorker_file]

@[simp] lemma nameBranch_paused (s : Sys) (x : Xstat) :
    (nameBranch s x).file.paused = s.file.paused := by
  unfold nameBranch
  split
  · rfl
  · rw [startWorker_paused]
    show (stopWorker s).file.paused = s.file.paused
    rw [stopWorker_file]

/-- A successful `update` passed both throw checks and returns the body. -/
lemma update_ok_elim (s : Sys) (x : Xstat) (s' : Sys) (hok : update s x = .ok s') :
    x.magic.isStr = true ∧ x.uuid = s.file.uuid ∧ s' = updBody s x := by
  unfold update at hok
  split at hok
  · exact Except.noConfusion hok
  · rename_i hm
    split at hok
    · exact Except.noConfusion hok
    · rename_i hu
      injection hok with h'
      refine ⟨?_, not_not.mp hu, h'.symm⟩
      cases hb : x.magic.isStr
      · exact absurd hb hm
      · rfl

/-- `update` throws exactly on a non-string magic or a uuid mismatch. -/
lemma update_error_iff (s : Sys) (x : Xstat) :
    (∃ e, update s x = .error e) ↔ (x.magic.isStr = false ∨ x.uuid ≠ s.file.uuid) := by
  unfold update
  by_cases hm : x.magic.isStr = false
  · rw [if_pos hm]
    simp [hm]
  · rw [if_neg hm]
    by_cases hu : x.uuid ≠ s.file.uuid
    · rw [if_pos hu]
      simp [hu]
    · rw [if_neg hu]
      simp [hm, hu]

/-- `update` is a no-op when neither name nor hash differs. -/
lemma update_noop (s : Sys) (x : Xstat) (hm : x.magic.isStr = true)
    (hu : x.uuid = s.file.uuid) (hn : s.file.name = x.name)
    (hh : s.file.hash = x.hash) : update s x = .ok s := by
  unfold update
  rw [if_neg (by rw [hm]; exact fun h => Bool.noConfusion h), if_neg (not_not.mpr hu)]
  unfold updBody
  rw [if_pos ⟨hn, hh⟩]

/-- The freshly attached hashless sample system is reachable. -/
lemma reach_sA : Reach sA := Reach.init xA fA (Or.inl rfl) rfl

/-- The freshly attached hashed sample system is reachable. -/
lemma reach_sH : Reach sH := Reach.init xH fH (Or.inr ⟨h64, rfl, by decide⟩) rfl

/-- Claim C1 (refuting): after five consecutive transient `EIO` failures
delivered to the successive jobs of a hashless attached file, the
failure counter still reads 0 — the error handler never increments it —
and a sixth job (id 5) has already been started while the hash is still
undefined. The claimed cap of 5 never takes effect. -/
theorem five_transient_failures_still_retry :
    sEio5.file.hashFail = 0 ∧ sEio5.file.worker = some 5 ∧
    findJob sEio5.jobs 5 = some { id := 5, path := "f1", cancelled := false } ∧
    sEio5.file.hash = .undef :=
  ⟨rfl, rfl, rfl, rfl⟩

/-- Claim C2: along every lifecycle step from a reachable system, the
failure counter is 0 whenever the digest becomes defined, and it never
decreases otherwise. (The source never increments the counter — see the
C1 theorem — so it is invariantly 0 and both parts hold.) -/
theorem hashFail_reset_and_monotone (s s' : Sys) (hr : Reach s) (hs : Step s s') :
    ((s.file.hash = .undef ∧ s'.file.hash ≠ .undef) → s'.file.hashFail = 0) ∧
    (¬(s.file.hash = .undef ∧ s'.file.hash ≠ .undef) →
      s.file.hashFail ≤ s'.file.hashFail) := by
  have h1 := (reach_inv s hr).1
  have h2 := (reach_inv s' (Reach.step s s' hr hs)).1
  constructor
  · intro _
    exact h2
  · intro _
    omega

/-- Witness for C2: the resume step on the freshly attached sample. -/
theorem hashFail_reset_and_monotone_witness :
    ((sA.file.hash = .undef ∧ (resume sA).file.hash ≠ .undef) →
      (resume sA).file.hashFail = 0) ∧
    (¬(sA.file.hash = .undef ∧ (resume sA).file.hash ≠ .undef) →
      sA.file.hashFail ≤ (resume sA).file.hashFail) :=
  hashFail_reset_and_monotone sA (resume sA) reach_sA (Step.sresume sA rfl)

/-- Claim C4 (refuting): a rename update restarts hashing while the old
job's abort is unacknowledged, so two jobs are outstanding (the
cancelled job 0 and the live job 1); when job 0's `EABORT`
acknowledgement then arrives, the handler's unconditional
`this.worker = null` clears the handle even though job 1 is still
running: the live job's handle is lost. -/
theorem rename_restart_loses_live_job_handle :
    sB1.jobs = [{ id := 0, path := "f1", cancelled := true },
                { id := 1, path := "g1", cancelled := false }] ∧
    sB1.file.worker = some 1 ∧
    sB2.file.worker = none ∧
    sB2.jobs = [{ id := 1, path := "g1", cancelled := false }] :=
  ⟨rfl, rfl, rfl, rfl⟩

/-- Claim C5 (refuting the handle conjunct): pausing the freshly
attached hashless file succeeds and issues the abort, but the worker
handle is still set when `pause()` returns — it is cleared only when
the job later acknowledges with `EABORT`. -/
theorem pause_leaves_worker_handle_set :
    isFailure (pause sA) = false ∧ (pauseD sA).file.paused = true ∧
    (pauseD sA).file.worker = some 0 :=
  ⟨rfl, rfl, rfl⟩

/-- Claim C5 (amended): `pause` raises an error iff the file is already
paused; otherwise it sets the paused flag and marks the active job (if
any) cancelled, while the worker handle is left as it was — the handle
is cleared asynchronously by the job's acknowledgement, not by `pause`
itself. -/
theorem pause_amended_spec (s : Sys) :
    ((∃ e, pause s = .error e) ↔ s.file.paused = true) ∧
    (∀ s', pause s = .ok s' →
      s'.file.paused = true ∧ s'.file.worker = s.file.worker ∧
      (∀ j, s.file.worker = some j →
        ∀ jb ∈ s'.jobs, jb.id = j → jb.cancelled = true)) := by
  constructor
  · constructor
    · rintro ⟨e, he⟩
      unfold pause at he
      split at he
      · rename_i hp
        exact hp
      · exact Except.noConfusion he
    · intro hp
      refine ⟨"paused", ?_⟩
      unfold pause
      rw [if_pos hp]
  · intro s' hok
    unfold pause at hok
    split at hok
    · exact Except.noConfusion hok
    · injection hok with h'
      rw [← h']
      refine ⟨rfl, ?_, ?_⟩
      · show (stopWorker s).file.worker = s.file.worker
        rw [stopWorker_file]
      · intro j hj jb hm hid
        have hm' : jb ∈ (stopWorker s).jobs := hm
        exact stopWorker_cancel s j hj jb hm' hid

/-- Witness for the amended C5 at the freshly attached sample. -/
theorem pause_amended_spec_witness :
    ((∃ e, pause sA = .error e) ↔ sA.file.paused = true) ∧
    (∀ s', pause sA = .ok s' →
      s'.file.paused = true ∧ s'.file.worker = sA.file.worker ∧
      (∀ j, sA.file.worker = some j →
        ∀ jb ∈ s'.jobs, jb.id = j → jb.cancelled = true)) :=
  pause_amended_spec sA

/-- Claim C7: for every attached reachable File, the digest is present
iff the file is registered in the index under exactly that digest and
under no other digest. -/
theorem digest_indexed_iff (s : Sys) (hr : Reach s) (ha : s.attached = true) :
    (s.file.hash ≠ .undef) ↔
      (∃ d, s.file.hash = .jstr d ∧ s.file.uuid ∈ idxLookup s.idx d ∧
        ∀ e, s.file.uuid ∈ idxLookup s.idx e → e = d) := by
  obtain ⟨h1, h2, h3, h4⟩ := reach_inv s hr
  constructor
  · intro hne
    rcases h2 with hu | ⟨d, hd, hlen⟩
    · exact absurd hu hne
    · refine ⟨d, hd, (h3 d).mpr ⟨ha, hd⟩, ?_⟩
      intro e he
      have hm := ((h3 e).mp he).2
      rw [hd] at hm
      exact (JVal.jstr.inj hm).symm
  · rintro ⟨d, hd, _, _⟩
    rw [hd]
    exact fun h => JVal.noConfusion h

/-- Witness for C7 at the freshly attached hashed sample. -/
theorem digest_indexed_iff_witness :
    sH.attached = true ∧
    ((sH.file.hash ≠ .undef) ↔
      (∃ d, sH.file.hash = .jstr d ∧ sH.file.uuid ∈ idxLookup sH.idx d ∧
        ∀ e, sH.file.uuid ∈ idxLookup sH.idx e → e = d)) :=
  ⟨rfl, digest_indexed_iff sH reach_sH rfl⟩

/-- Claim C8 (refuting the job-start conjunct): renaming an already
hashed file is accepted and sets the new name, but no new job is
started — `startWorker` refuses because the hash is truthy — so the
worker handle stays empty and no job exists at all. -/
theorem update_rename_hashed_starts_no_job :
    isFailure (update sH xH2) = false ∧
    sH.file.name ≠ xH2.name ∧
    (updateD sH xH2).file.name = "h2" ∧
    (updateD sH xH2).file.worker = none ∧
    (updateD sH xH2).jobs = [] := by
  refine ⟨rfl, ?_, rfl, rfl, rfl⟩
  decide

/-- Claim C8 (amended): `update` throws iff the magic is not a string or
the uuid mismatches; it is a no-op when neither name nor hash differs;
when the name differs it marks the active job (if any) cancelled, sets
the new name, and starts a new job against the new path if and only if
the file is hashless, unpaused and below the failure cap — otherwise
the worker handle is left unchanged. -/
theorem update_amended_spec (s : Sys) (x : Xstat)
    (hw : ∀ j, s.file.worker = some j → j < s.nextId) :
    ((∃ e, update s x = .error e) ↔ (x.magic.isStr = false ∨ x.uuid ≠ s.file.uuid)) ∧
    (x.magic.isStr = true → x.uuid = s.file.uuid → s.file.name = x.name →
      s.file.hash = x.hash → update s x = .ok s) ∧
    (∀ s', update s x = .ok s' → s.file.name ≠ x.name →
      s'.file.name = x.name ∧
      (∀ j, s.file.worker = some j → ∀ jb ∈ s'.jobs, jb.id = j → jb.cancelled = true) ∧
      (s.file.hash.truthy = false → s.file.paused = false → s.file.hashFail < 5 →
        s'.file.worker = some s.nextId ∧
        { id := s.nextId, path := x.name, cancelled := false } ∈ s'.jobs) ∧
      ((s.file.hash.truthy = true ∨ s.file.paused = true ∨ 5 ≤ s.file.hashFail) →
        s'.file.worker = s.file.worker)) := by
  refine ⟨update_error_iff s x, update_noop s x, ?_⟩
  intro s' hok hd
  obtain ⟨hm, hu, hb⟩ := update_ok_elim s x s' hok
  subst hb
  have hne : ¬(s.file.name = x.name ∧ s.file.hash = x.hash) := fun hc => hd hc.1
  unfold updBody
  rw [if_neg hne]
  unfold nameBranch
  rw [if_neg hd]
  have mhash : (setName (stopWorker s) x.name).file.hash = s.file.hash := by
    show (stopWorker s).file.hash = s.file.hash
    rw [stopWorker_file]
  have mpau : (setName (stopWorker s) x.name).file.paused = s.file.paused := by
    show (stopWorker s).file.paused = s.file.paused
    rw [stopWorker_file]
  have mfail : (setName (stopWorker s) x.name).file.hashFail = s.file.hashFail := by
    show (stopWorker s).file.hashFail = s.file.hashFail
    rw [stopWorker_file]
  have mnext : (setName (stopWorker s) x.name).nextId = s.nextId := by
    show (stopWorker s).nextId = s.nextId
    rw [stopWorker_nextId]
  refine ⟨?_, ?_, ?_, ?_⟩
  · rw [resetIfNoHash_name, hashBranch_name, startWorker_name]
    rfl
  · intro j hj jb hm2 hid
    rw [resetIfNoHash_jobs, hashBranch_jobs] at hm2
    unfold startWorker at hm2
    split at hm2
    · rcases List.mem_append.mp hm2 with hl | hr
      · exact stopWorker_cancel s j hj jb hl hid
      · have hj2 := List.mem_singleton.mp hr
        have hlt := hw j hj
        rw [hj2] at hid
        have hnn : (setName (stopWorker s) x.name).nextId = j := hid
        rw [mnext] at hnn
        omega
    · exact stopWorker_cancel s j hj jb hm2 hid
  · intro hh hp hf
    rw [resetIfNoHash_worker, hashBranch_worker, resetIfNoHash_jobs, hashBranch_jobs]
    have hguard : (setName (stopWorker s) x.name).file.hash.truthy = false ∧
        (setName (stopWorker s) x.name).file.paused = false ∧
        (setName (stopWorker s) x.name).file.hashFail < 5 := by
      rw [mhash, mpau, mfail]
      exact ⟨hh, hp, hf⟩
    rw [startWorker_pos _ hguard]
    constructor
    · show some (setName (stopWorker s) x.name).nextId = some s.nextId
      rw [mnext]
    · apply List.mem_append.mpr
      right
      rw [mnext]
      exact List.mem_singleton.mpr rfl
  · intro hcase
    rw [resetIfNoHash_worker, hashBranch_worker]
    have hguard : ¬((setName (stopWorker s) x.name).file.hash.truthy = false ∧
        (setName (stopWorker s) x.name).file.paused = false ∧
        (setName (stopWorker s) x.name).file.hashFail < 5) := by
      rw [mhash, mpau, mfail]
      rintro ⟨g1, g2, g3⟩
      rcases hcase with hc | hc | hc
      · rw [hc] at g1
        exact Bool.noConfusion g1
      · rw [hc] at g2
        exact Bool.noConfusion g2
      · omega
    rw [startWorker_neg _ hguard]
    show (stopWorker s).file.worker = s.file.worker
    rw [stopWorker_file]

/-- Witness for the amended C8 at the hashed sample and its rename. -/
theorem update_amended_spec_witness :
    ((∃ e, update sH xH2 = .error e) ↔
      (xH2.magic.isStr = false ∨ xH2.uuid ≠ sH.file.uuid)) ∧
    (xH2.magic.isStr = true → xH2.uuid = sH.file.uuid → sH.file.name = xH2.name →
      sH.file.hash = xH2.hash → update sH xH2 = .ok sH) ∧
    (∀ s', update sH xH2 = .ok s' → sH.file.name ≠ xH2.name →
      s'.file.name = xH2.name ∧
      (∀ j, sH.file.worker = some j → ∀ jb ∈ s'.jobs, jb.id = j → jb.cancelled = true) ∧
      (sH.file.hash.truthy = false → sH.file.paused = false → sH.file.hashFail < 5 →
        s'.file.worker = some sH.nextId ∧
        { id := sH.nextId, path := xH2.name, cancelled := false } ∈ s'.jobs) ∧
      ((sH.file.hash.truthy = true ∨ sH.file.paused = true ∨ 5 ≤ sH.file.hashFail) →
        s'.file.worker = sH.file.worker)) :=
  update_amended_spec sH xH2 (fun _ hj => Option.noConfusion hj)

/-- Claim C9: the constructor throws not only on a non-string magic but
also whenever the hash is defined and not a string. -/
theorem mkFile_rejects_bad_hash (x : Xstat) :
    (x.magic.isStr = false → ∃ e, mkFile x = .error e) ∧
    (x.magic.isStr = true → x.hash ≠ .undef → x.hash.isStr = false →
      ∃ e, mkFile x = .error e) := by
  constructor
  · intro hm
    refine ⟨"file must have magic string", ?_⟩
    unfold mkFile
    rw [if_pos hm]
  · intro hm hh1 hh2
    refine ⟨"xstat hash must be either a string or undefined", ?_⟩
    unfold mkFile
    rw [if_neg (by rw [hm]; exact fun h => Bool.noConfusion h), if_pos ⟨hh1, hh2⟩]

/-- Witness for C9 at an xstat with string magic and numeric hash. -/
theorem mkFile_rejects_bad_hash_witness :
    (xBad.magic.isStr = false → ∃ e, mkFile xBad = .error e) ∧
    (xBad.magic.isStr = true → xBad.hash ≠ .undef → xBad.hash.isStr = false →
      ∃ e, mkFile xBad = .error e) :=
  mkFile_rejects_bad_hash xBad

/-- Claim C10: a successful `update` never changes the file's uuid,
magic or paused flag — a changed magic in the supplied xstat is
silently ignored. -/
theorem update_preserves_uuid_magic_paused (s : Sys) (x : Xstat) (s' : Sys)
    (hok : update s x = .ok s') :
    s'.file.uuid = s.file.uuid ∧ s'.file.magic = s.file.magic ∧
      s'.file.paused = s.file.paused := by
  obtain ⟨_, _, hb⟩ := update_ok_elim s x s' hok
  subst hb
  unfold updBody
  split
  · exact ⟨rfl, rfl, rfl⟩
  · refine ⟨?_, ?_, ?_⟩
    · rw [resetIfNoHash_uuid, hashBranch_uuid, nameBranch_uuid]
    · rw [resetIfNoHash_magic, hashBranch_magic, nameBranch_magic]
    · rw [resetIfNoHash_paused, hashBranch_paused, nameBranch_paused]

/-- Witness for C10 at the hashed sample and its rename. -/
theorem update_preserves_uuid_magic_paused_witness :
    (updateD sH xH2).file.uuid = sH.file.uuid ∧
    (updateD sH xH2).file.magic = sH.file.magic ∧
    (updateD sH xH2).file.paused = sH.file.paused :=
  update_preserves_uuid_magic_paused sH xH2 (updateD sH xH2) rfl

end Appifi
